import Mathlib

/-!
Verification of the domain-consolidation pipeline of `generate_blocklist.py`.

Python strings are embedded as `List Char` (named `Str` below); Python's
`str.split(".")` is `List.splitOn '.'` and `".".join` is `joinDot`, which both
agree with the Python semantics on all inputs (empty pieces are kept, the empty
string splits to `[[]]`).  Python sets of strings are embedded as `Finset Str`;
set iteration order is unspecified in Python, so iteration is modelled by the
canonical sorted enumeration `Finset.sort`.
-/

namespace GB

/-- Python strings are modelled as their character sequences. -/
abbrev Str := List Char

/-- Embedding of `domain.split(".")`. -/
def splitDot (s : Str) : List Str := s.splitOn '.'

/-- Embedding of `".".join(labels)`. -/
def joinDot : List Str → Str
  | [] => []
  | [x] => x
  | x :: y :: ys => x ++ '.' :: joinDot (y :: ys)

theorem joinDot_eq_intercalate (ls : List Str) : joinDot ls = [('.' : Char)].intercalate ls := by
  match ls with
  | [] => simp [joinDot, List.intercalate]
  | [x] => simp [joinDot, List.intercalate]
  | x :: y :: ys =>
    have ih := joinDot_eq_intercalate (y :: ys)
    simp only [joinDot, ih, List.intercalate, List.intersperse_cons_cons]
    simp

theorem splitDot_ne_nil (s : Str) : splitDot s ≠ [] :=
  List.splitOnP_ne_nil _ s

theorem joinDot_splitDot (s : Str) : joinDot (splitDot s) = s := by
  rw [joinDot_eq_intercalate]
  exact List.intercalate_splitOn s '.'

theorem not_dot_mem_splitDot : ∀ (s : Str), ∀ l ∈ splitDot s, ('.' : Char) ∉ l := by
  intro s
  induction s with
  | nil =>
    intro l h
    simp only [splitDot, List.splitOn_nil, List.mem_singleton] at h
    subst h; simp
  | cons c cs ih =>
    intro l h
    simp only [splitDot, List.splitOn, List.splitOnP_cons] at h ih
    by_cases hc : c = '.'
    · rw [if_pos (by simp [hc])] at h
      rcases List.mem_cons.1 h with h | h
      · subst h; simp
      · exact ih l h
    · rw [if_neg (by simp [hc])] at h
      rcases hsp : cs.splitOnP (· == '.') with _ | ⟨hd, tl⟩
      · exact absurd hsp (List.splitOnP_ne_nil _ cs)
      · rw [hsp] at h
        simp only [List.modifyHead_cons, List.mem_cons] at h
        rcases h with h | h
        · subst h
          intro hmem
          rcases List.mem_cons.1 hmem with h' | h'
          · exact hc h'.symm
          · exact ih hd (by rw [hsp]; exact List.mem_cons_self _ _) h'
        · exact ih l (by rw [hsp]; exact List.mem_cons_of_mem _ h)

theorem splitDot_joinDot (ls : List Str) (hne : ls ≠ []) (hdot : ∀ l ∈ ls, ('.' : Char) ∉ l) :
    splitDot (joinDot ls) = ls := by
  rw [joinDot_eq_intercalate]
  exact List.splitOn_intercalate ls '.' hdot hne

theorem joinDot_append (l₁ l₂ : List Str) (h₁ : l₁ ≠ []) (h₂ : l₂ ≠ []) :
    joinDot (l₁ ++ l₂) = joinDot l₁ ++ '.' :: joinDot l₂ := by
  match l₁, l₂ with
  | [], _ => exact absurd rfl h₁
  | _, [] => exact absurd rfl h₂
  | [x], b :: bs => simp [joinDot]
  | x :: a :: as, b :: bs =>
    have ih := joinDot_append (a :: as) (b :: bs) (by simp) (by simp)
    show joinDot (x :: (a :: as ++ b :: bs)) = _
    have hstep : joinDot (x :: (a :: as ++ b :: bs)) = x ++ '.' :: joinDot (a :: as ++ b :: bs) := by
      rw [List.cons_append]; rfl
    rw [hstep, ih]
    simp [joinDot, List.append_assoc]

theorem dot_pair_inj {a a' b b' : Str} (ha : ('.' : Char) ∉ a) (ha' : ('.' : Char) ∉ a')
    (h : a ++ '.' :: b = a' ++ '.' :: b') : a = a' ∧ b = b' := by
  induction a generalizing a' with
  | nil =>
    match a' with
    | [] => simpa using h
    | c :: t =>
      simp only [List.nil_append, List.cons_append, List.cons.injEq] at h
      exact absurd (List.mem_cons.2 (Or.inl h.1)) ha'
  | cons c t ih =>
    match a' with
    | [] =>
      simp only [List.cons_append, List.nil_append, List.cons.injEq] at h
      exact absurd (List.mem_cons.2 (Or.inl h.1.symm)) ha
    | c' :: t' =>
      simp only [List.cons_append, List.cons.injEq] at h
      have hht := ih (fun hm => ha (List.mem_cons_of_mem _ hm))
        (fun hm => ha' (List.mem_cons_of_mem _ hm)) h.2
      exact ⟨by rw [h.1, hht.1], hht.2⟩

theorem splitDot_example :
    splitDot "a.example.com".toList = ["a".toList, "example".toList, "com".toList] := by decide

/-- Embedding of the test `len(set(parts_at_i)) == 1`: a nonempty list whose
elements are all equal.  (`parts_at_i` is always nonempty in the source, since
the group being consolidated is nonempty.) -/
def allSame (xs : List Str) : Bool :=
  match xs with
  | [] => false
  | x :: rest => rest.all (· == x)

/-- Embedding of Python `min` over a list of numbers: `None` models the
`ValueError` raised on an empty sequence. -/
def listMin : List Nat → Option Nat
  | [] => none
  | x :: xs => some (xs.foldl min x)

/-- Structural worker for `suffixLoop`; the fuel argument counts the remaining
iterations of the `for i in range(1, min_length + 1)` loop and is always
`minLen + 1 - i`, so it never runs out while `i ≤ minLen`. -/
def suffixLoopF : Nat → List (List Str) → Nat → Nat → List Str
  | 0, _, _, _ => []
  | fuel + 1, dps, minLen, i =>
    if i ≤ minLen then
      if allSame (dps.map (fun p => p.getD (p.length - i) [])) then
        suffixLoopF fuel dps minLen (i + 1) ++
          [(dps.map (fun p => p.getD (p.length - i) [])).headD []]
      else []
    else []

/-- Embedding of the scan `for i in range(1, min_length + 1)` inside
`find_common_suffix`: at offset `i` the label `parts[-i]` (that is,
`parts[parts.length - i]`) of every member is compared; while they all agree
the label is accumulated (Python inserts at position 0, which the
`++ [label]` after the recursive call reproduces), and the first disagreement
stops the scan. -/
def suffixLoop (dps : List (List Str)) (minLen i : Nat) : List Str :=
  suffixLoopF (minLen + 1 - i) dps minLen i

theorem suffixLoop_eq (dps : List (List Str)) (minLen i : Nat) :
    suffixLoop dps minLen i =
      if i ≤ minLen then
        if allSame (dps.map (fun p => p.getD (p.length - i) [])) then
          suffixLoop dps minLen (i + 1) ++
            [(dps.map (fun p => p.getD (p.length - i) [])).headD []]
        else []
      else [] := by
  unfold suffixLoop
  by_cases h : i ≤ minLen
  · have h1 : minLen + 1 - i = (minLen - i) + 1 := by omega
    have h2 : minLen - i = minLen + 1 - (i + 1) := by omega
    rw [h1]
    simp only [suffixLoopF, if_pos h, h2]
  · have h0 : minLen + 1 - i = 0 := by omega
    rw [h0, if_neg h]
    rfl

/-- The `min_length` value of `find_common_suffix` (the `.getD 0` is never
reached on the nonempty lists the source applies it to). -/
def fcsMin (domains : List Str) : Nat :=
  (listMin ((domains.map splitDot).map List.length)).getD 0

/-- Embedding of `DomainProcessor.find_common_suffix`. -/
def find_common_suffix (domains : List Str) : Str :=
  if domains = [] then []
  else joinDot (suffixLoop (domains.map splitDot) (fcsMin domains) 1)

/-- A domain takes part in root-grouping exactly when `len(parts) >= 2`. -/
def eligible (d : Str) : Bool := decide (2 ≤ (splitDot d).length)

/-- Embedding of `parts[-2:]`. -/
def lastTwo (ps : List Str) : List Str := ps.drop (ps.length - 2)

/-- Embedding of `".".join(parts[-2:])`, the grouping key of `optimise_domains`. -/
def rootKey (d : Str) : Str := joinDot (lastTwo (splitDot d))

/-- The keys of the `groups` dictionary built by `optimise_domains`. -/
def roots (L : List Str) : List Str := ((L.filter eligible).map rootKey).dedup

/-- The entry of the `groups` dictionary at key `r`: all domains of the input
with at least two labels whose root key is `r`. -/
def group (L : List Str) (r : Str) : List Str :=
  L.filter (fun d => eligible d && rootKey d == r)

/-- Embedding of the body of the `for root, group_domains in groups.items()`
loop of `optimise_domains`: the domains this group contributes to the result. -/
def processGroup (group_domains : List Str) : List Str :=
  if group_domains.length = 1 then [group_domains.headD []]
  else
    let cs := find_common_suffix group_domains
    if cs ≠ [] ∧ 2 ≤ (splitDot cs).length then
      if group_domains.all (fun d => d == cs || ('.' :: cs).isSuffixOf d) then [cs]
      else group_domains
    else group_domains

/-- The contributions of all groups, in the iteration order of the model. -/
def optimiseList (L : List Str) : List Str :=
  ((roots L).map (fun r => processGroup (group L r))).flatten

/-- Python string comparison `a <= b`: lexicographic over code points, with a
proper initial segment comparing smaller. -/
def strLe : Str → Str → Bool
  | [], _ => true
  | _ :: _, [] => false
  | a :: as, b :: bs => if a = b then strLe as bs else decide (a < b)

/-- Propositional form of `strLe`, the order used to enumerate Python sets. -/
def strLeP (a b : Str) : Prop := strLe a b = true

instance : DecidableRel strLeP := fun a b => inferInstanceAs (Decidable (strLe a b = true))

theorem strLe_total (a b : Str) : strLeP a b ∨ strLeP b a := by
  induction a generalizing b with
  | nil => left; rfl
  | cons x xs ih =>
    match b with
    | [] => right; rfl
    | y :: ys =>
      by_cases hxy : x = y
      · rcases ih ys with h | h
        · left; simp [strLeP, strLe, hxy]; simpa [strLeP] using h
        · right; simp [strLeP, strLe, hxy.symm]; simpa [strLeP] using h
      · rcases lt_or_gt_of_ne hxy with h | h
        · left; simp [strLeP, strLe, hxy, h]
        · right; simp [strLeP, strLe, Ne.symm hxy, h]

theorem strLe_antisymm {a b : Str} (h₁ : strLeP a b) (h₂ : strLeP b a) : a = b := by
  induction a generalizing b with
  | nil =>
    match b with
    | [] => rfl
    | y :: ys => simp [strLeP, strLe] at h₂
  | cons x xs ih =>
    match b with
    | [] => simp [strLeP, strLe] at h₁
    | y :: ys =>
      by_cases hxy : x = y
      · subst hxy
        simp only [strLeP, strLe, if_pos rfl] at h₁ h₂
        rw [ih h₁ h₂]
      · simp only [strLeP, strLe, if_neg hxy, if_neg (Ne.symm hxy), decide_eq_true_eq] at h₁ h₂
        exact absurd (h₁.trans h₂) (lt_irrefl x)

theorem strLe_trans {a b c : Str} (h₁ : strLeP a b) (h₂ : strLeP b c) : strLeP a c := by
  induction a generalizing b c with
  | nil => rfl
  | cons x xs ih =>
    match b, c with
    | [], _ => simp [strLeP, strLe] at h₁
    | _ :: _, [] => simp [strLeP, strLe] at h₂
    | y :: ys, z :: zs =>
      by_cases hxy : x = y <;> by_cases hyz : y = z
      · subst hxy; subst hyz
        simp only [strLeP, strLe, if_pos rfl] at h₁ h₂ ⊢
        exact ih h₁ h₂
      · subst hxy
        simp only [strLeP, strLe, if_neg hyz] at h₂ ⊢
        exact h₂
      · subst hyz
        simp only [strLeP, strLe, if_neg hxy] at h₁ ⊢
        exact h₁
      · simp only [strLeP, strLe, if_neg hxy, if_neg hyz, decide_eq_true_eq] at h₁ h₂
        by_cases hxz : x = z
        · subst hxz; exact absurd (h₁.trans h₂) (lt_irrefl x)
        · simp [strLeP, strLe, if_neg hxz, h₁.trans h₂]

instance : IsTotal Str strLeP := ⟨strLe_total⟩

instance : IsTrans Str strLeP := ⟨fun _ _ _ => strLe_trans⟩

instance : IsAntisymm Str strLeP := ⟨fun _ _ => strLe_antisymm⟩

theorem insertionSort_perm_invariant :
    ∀ (l₁ l₂ : List Str), l₁ ≈ l₂ →
      List.insertionSort strLeP l₁ = List.insertionSort strLeP l₂ := by
  intro l₁ l₂ h
  exact List.eq_of_perm_of_sorted
    (((List.perm_insertionSort strLeP l₁).trans h).trans (List.perm_insertionSort strLeP l₂).symm)
    (List.sorted_insertionSort strLeP l₁) (List.sorted_insertionSort strLeP l₂)

/-- Enumeration of a Python set of strings: Python's iteration order is
unspecified, so the model enumerates the set in Python sorted order, which is
well defined on the underlying multiset. -/
def pySorted (D : Finset Str) : List Str :=
  Quot.lift (List.insertionSort strLeP) insertionSort_perm_invariant D.val

/-- Embedding of `DomainProcessor.optimise_domains`. -/
def optimise_domains (D : Finset Str) : Finset Str :=
  (optimiseList (pySorted D)).toFinset

theorem pySorted_coe (D : Finset Str) : (pySorted D : Multiset Str) = D.val := by
  rcases D with ⟨val, nodup⟩
  refine Quot.inductionOn val (fun l _ => ?_) nodup
  exact Quot.sound (List.perm_insertionSort strLeP l)

theorem mem_pySorted {D : Finset Str} {x : Str} : x ∈ pySorted D ↔ x ∈ D := by
  rw [← Multiset.mem_coe, pySorted_coe]
  exact Iff.rfl

theorem pySorted_nodup (D : Finset Str) : (pySorted D).Nodup := by
  have := D.nodup
  rwa [← pySorted_coe, Multiset.coe_nodup] at this

theorem pySorted_length (D : Finset Str) : (pySorted D).length = D.card := by
  have : Multiset.card (pySorted D : Multiset Str) = Multiset.card D.val := by
    rw [pySorted_coe]
  simpa using this

theorem pySorted_sorted (D : Finset Str) : List.Sorted strLeP (pySorted D) := by
  rcases D with ⟨val, nodup⟩
  refine Quot.inductionOn val (fun l _ => ?_) nodup
  exact List.sorted_insertionSort strLeP l

theorem pySorted_toFinset (D : Finset Str) : (pySorted D).toFinset = D :=
  Finset.ext fun a => by rw [List.mem_toFinset, mem_pySorted]

theorem allSame_eq_head {xs : List Str} (h : allSame xs = true) :
    ∀ a ∈ xs, a = xs.headD [] := by
  match xs with
  | [] => simp [allSame] at h
  | x :: rest =>
    intro a ha
    rcases List.mem_cons.1 ha with h' | h'
    · simp [h']
    · have hx : ∀ b ∈ rest, b = x := by simpa [allSame] using h
      simpa using hx a h'

theorem drop_eq_getD_cons {l : List Str} {n : Nat} (h : n < l.length) :
    l.drop n = l.getD n [] :: l.drop (n + 1) := by
  rw [List.drop_eq_getElem_cons h]
  congr 1
  rw [List.getD_eq_getElem?_getD, List.getElem?_eq_getElem h]
  rfl

theorem getD_reverse {l : List Str} {n : Nat} (h : n < l.length) :
    l.reverse.getD n [] = l.getD (l.length - 1 - n) [] := by
  rw [List.getD_eq_getElem?_getD, List.getD_eq_getElem?_getD, List.getElem?_reverse h]

theorem suffixLoop_suffix_aux (dps : List (List Str)) (minLen : Nat)
    (hm : ∀ p ∈ dps, minLen ≤ p.length) :
    ∀ (k i : Nat), minLen + 1 - i ≤ k → 1 ≤ i → ∀ p ∈ dps,
      (suffixLoop dps minLen i).reverse <+: p.reverse.drop (i - 1) := by
  intro k
  induction k with
  | zero =>
    intro i hk h1 p hp
    rw [suffixLoop_eq, if_neg (by omega)]
    simp
  | succ k ih =>
    intro i hk h1 p hp
    by_cases hi : i ≤ minLen
    · rw [suffixLoop_eq, if_pos hi]
      by_cases hall : allSame (dps.map (fun q => q.getD (q.length - i) [])) = true
      · rw [if_pos hall, List.reverse_append]
        have hplen : minLen ≤ p.length := hm p hp
        have hgetd : p.getD (p.length - i) [] =
            (dps.map (fun q => q.getD (q.length - i) [])).headD [] :=
          allSame_eq_head hall _ (List.mem_map_of_mem _ hp)
        have hrevlt : i - 1 < p.reverse.length := by
          rw [List.length_reverse]; omega
        have hdropcons : p.reverse.drop (i - 1) =
            p.getD (p.length - i) [] :: p.reverse.drop i := by
          rw [drop_eq_getD_cons hrevlt, getD_reverse (by rw [List.length_reverse] at hrevlt; exact hrevlt)]
          have e1 : p.length - 1 - (i - 1) = p.length - i := by omega
          have e2 : i - 1 + 1 = i := by omega
          rw [e1, e2]
        have hih := ih (i + 1) (by omega) (by omega) p hp
        have e3 : i + 1 - 1 = i := by omega
        rw [e3] at hih
        obtain ⟨t, ht⟩ := hih
        refine ⟨t, ?_⟩
        simp only [List.reverse_cons, List.reverse_nil, List.nil_append, List.singleton_append,
          List.cons_append]
        rw [hdropcons, ← hgetd, ht]
      · rw [if_neg hall]; simp
    · rw [suffixLoop_eq, if_neg hi]; simp

theorem suffixLoop_isSuffix (dps : List (List Str)) (minLen : Nat)
    (hm : ∀ p ∈ dps, minLen ≤ p.length) :
    ∀ p ∈ dps, suffixLoop dps minLen 1 <:+ p := by
  intro p hp
  have h := suffixLoop_suffix_aux dps minLen hm (minLen + 1) 1 (by omega) (by omega) p hp
  simp only [Nat.sub_self, List.drop_zero] at h
  exact List.reverse_prefix.1 h

theorem foldl_min_le_init : ∀ (l : List Nat) (a : Nat), l.foldl min a ≤ a := by
  intro l
  induction l with
  | nil => intro a; simp
  | cons x xs ih =>
    intro a
    simpa using le_trans (ih (min a x)) (min_le_left a x)

theorem foldl_min_le_mem : ∀ (l : List Nat) (a : Nat), ∀ x ∈ l, l.foldl min a ≤ x := by
  intro l
  induction l with
  | nil => intro a x hx; simp at hx
  | cons y ys ih =>
    intro a x hx
    rcases List.mem_cons.1 hx with h | h
    · subst h
      simpa using le_trans (foldl_min_le_init ys (min a x)) (min_le_right a x)
    · exact ih (min a y) x h

theorem listMin_le {l : List Nat} {m : Nat} (h : listMin l = some m) : ∀ x ∈ l, m ≤ x := by
  match l with
  | [] => simp [listMin] at h
  | y :: ys =>
    intro x hx
    simp only [listMin, Option.some.injEq] at h
    subst h
    rcases List.mem_cons.1 hx with h | h
    · subst h; exact foldl_min_le_init ys x
    · exact foldl_min_le_mem ys y x h

theorem le_foldl_min {c : Nat} : ∀ (l : List Nat) (a : Nat), c ≤ a → (∀ x ∈ l, c ≤ x) →
    c ≤ l.foldl min a := by
  intro l
  induction l with
  | nil => intro a ha _; simpa using ha
  | cons y ys ih =>
    intro a ha hl
    exact ih (min a y) (le_min ha (hl y (List.mem_cons_self y ys)))
      (fun x hx => hl x (List.mem_cons_of_mem y hx))

theorem le_listMin {l : List Nat} {m c : Nat} (h : listMin l = some m)
    (hc : ∀ x ∈ l, c ≤ x) : c ≤ m := by
  match l with
  | [] => simp [listMin] at h
  | y :: ys =>
    simp only [listMin, Option.some.injEq] at h
    subst h
    exact le_foldl_min ys y (hc y (List.mem_cons_self y ys))
      (fun x hx => hc x (List.mem_cons_of_mem y hx))

theorem fcsMin_le {g : List Str} {d : Str} (hd : d ∈ g) : fcsMin g ≤ (splitDot d).length := by
  rcases h : listMin ((g.map splitDot).map List.length) with _ | m
  · match g with
    | [] => simp at hd
    | y :: ys => simp [listMin] at h
  · unfold fcsMin
    rw [h, Option.getD_some]
    exact listMin_le h _ (List.mem_map_of_mem _ (List.mem_map_of_mem _ hd))

theorem two_le_fcsMin {g : List Str} (hg : g ≠ [])
    (h2 : ∀ d ∈ g, 2 ≤ (splitDot d).length) : 2 ≤ fcsMin g := by
  rcases h : listMin ((g.map splitDot).map List.length) with _ | m
  · match g with
    | [] => exact absurd rfl hg
    | y :: ys => simp [listMin] at h
  · unfold fcsMin
    rw [h, Option.getD_some]
    refine le_listMin h ?_
    intro x hx
    obtain ⟨ps, hps, rfl⟩ := List.mem_map.1 hx
    obtain ⟨d, hd, rfl⟩ := List.mem_map.1 hps
    exact h2 d hd

theorem fcs_eq {g : List Str} (hg : g ≠ []) :
    find_common_suffix g = joinDot (suffixLoop (g.map splitDot) (fcsMin g) 1) := by
  unfold find_common_suffix
  rw [if_neg hg]

theorem fcs_labels_suffix {g : List Str} {d : Str} (hd : d ∈ g) :
    suffixLoop (g.map splitDot) (fcsMin g) 1 <:+ splitDot d := by
  refine suffixLoop_isSuffix _ _ ?_ _ (List.mem_map_of_mem _ hd)
  intro p hp
  obtain ⟨e, he, rfl⟩ := List.mem_map.1 hp
  exact fcsMin_le he

theorem fcs_labels_nodot {g : List Str} (hg : g ≠ []) :
    ∀ x ∈ suffixLoop (g.map splitDot) (fcsMin g) 1, ('.' : Char) ∉ x := by
  match g with
  | d :: ds =>
    intro x hx
    have hsub := (fcs_labels_suffix (List.mem_cons_self d ds)).subset
    exact not_dot_mem_splitDot d x (hsub hx)

theorem fcs_splitDot {g : List Str} (hg : g ≠ [])
    (hne : suffixLoop (g.map splitDot) (fcsMin g) 1 ≠ []) :
    splitDot (find_common_suffix g) = suffixLoop (g.map splitDot) (fcsMin g) 1 := by
  rw [fcs_eq hg]
  exact splitDot_joinDot _ hne (fcs_labels_nodot hg)

theorem covered_of_fcs {g : List Str} {d : Str} (hg : g ≠ []) (hd : d ∈ g)
    (hne : suffixLoop (g.map splitDot) (fcsMin g) 1 ≠ []) :
    d = find_common_suffix g ∨ ('.' :: find_common_suffix g) <:+ d := by
  obtain ⟨front, hfront⟩ := fcs_labels_suffix hd
  by_cases hf : front = []
  · left
    subst hf
    rw [List.nil_append] at hfront
    rw [fcs_eq hg, hfront, joinDot_splitDot]
  · right
    refine ⟨joinDot front, ?_⟩
    rw [fcs_eq hg]
    calc joinDot front ++ '.' :: joinDot (suffixLoop (g.map splitDot) (fcsMin g) 1)
        = joinDot (front ++ suffixLoop (g.map splitDot) (fcsMin g) 1) :=
          (joinDot_append _ _ hf hne).symm
      _ = joinDot (splitDot d) := by rw [hfront]
      _ = d := joinDot_splitDot d

theorem allSame_of_const {dps : List (List Str)} {f : List Str → Str} {c : Str}
    (hne : dps ≠ []) (h : ∀ p ∈ dps, f p = c) : allSame (dps.map f) = true := by
  match dps with
  | q :: qs =>
    simp only [List.map_cons, allSame]
    refine List.all_eq_true.2 ?_
    intro x hx
    obtain ⟨p, hp, rfl⟩ := List.mem_map.1 hx
    rw [h p (List.mem_cons_of_mem q hp), h q (List.mem_cons_self q qs)]
    simp

theorem headD_map_const {dps : List (List Str)} {f : List Str → Str} {c : Str}
    (hne : dps ≠ []) (h : ∀ p ∈ dps, f p = c) : (dps.map f).headD [] = c := by
  match dps with
  | q :: qs =>
    simp only [List.map_cons, List.headD_cons]
    exact h q (List.mem_cons_self q qs)

theorem suffixLoop_two {dps : List (List Str)} {minLen : Nat} {a b : Str}
    (hne : dps ≠ []) (hmin : 2 ≤ minLen)
    (hb : ∀ p ∈ dps, p.getD (p.length - 1) [] = b)
    (ha : ∀ p ∈ dps, p.getD (p.length - 2) [] = a) :
    ∃ t, suffixLoop dps minLen 1 = t ++ [a, b] := by
  have hall1 : allSame (dps.map (fun q => q.getD (q.length - 1) [])) = true :=
    allSame_of_const hne hb
  have hh1 : (dps.map (fun q => q.getD (q.length - 1) [])).headD [] = b :=
    headD_map_const hne hb
  have hall2 : allSame (dps.map (fun q => q.getD (q.length - 2) [])) = true :=
    allSame_of_const hne ha
  have hh2 : (dps.map (fun q => q.getD (q.length - 2) [])).headD [] = a :=
    headD_map_const hne ha
  rw [suffixLoop_eq, if_pos (by omega : 1 ≤ minLen), if_pos hall1, hh1]
  rw [suffixLoop_eq dps minLen (1 + 1), show (1 : Nat) + 1 = 2 from rfl,
    if_pos (by omega : 2 ≤ minLen), if_pos hall2, hh2]
  exact ⟨suffixLoop dps minLen 3, by rw [List.append_assoc]; rfl⟩

theorem lastTwo_pair {d : Str} (h2 : 2 ≤ (splitDot d).length) :
    ∃ a b, lastTwo (splitDot d) = [a, b] ∧ ('.' : Char) ∉ a ∧ ('.' : Char) ∉ b ∧
      (splitDot d).getD ((splitDot d).length - 2) [] = a ∧
      (splitDot d).getD ((splitDot d).length - 1) [] = b := by
  have hlen : (lastTwo (splitDot d)).length = 2 := by
    unfold lastTwo
    rw [List.length_drop]
    omega
  obtain ⟨a, b, hab⟩ := List.length_eq_two.1 hlen
  refine ⟨a, b, hab, ?_, ?_, ?_, ?_⟩
  · exact not_dot_mem_splitDot d a (List.mem_of_mem_drop (hab ▸ List.mem_cons_self a [b]))
  · exact not_dot_mem_splitDot d b
      (List.mem_of_mem_drop (hab ▸ List.mem_cons_of_mem a (List.mem_cons_self b [])))
  · have hd2 : (splitDot d).length - 2 < (splitDot d).length := by omega
    have := drop_eq_getD_cons hd2
    unfold lastTwo at hab
    rw [hab] at this
    exact (List.cons.injEq .. ▸ this).1.symm
  · have hd2 : (splitDot d).length - 2 < (splitDot d).length := by omega
    have hd1 : (splitDot d).length - 1 < (splitDot d).length := by omega
    have hstep := drop_eq_getD_cons hd2
    unfold lastTwo at hab
    rw [hab] at hstep
    have e1 : (splitDot d).length - 2 + 1 = (splitDot d).length - 1 := by omega
    rw [e1] at hstep
    have htail : (splitDot d).drop ((splitDot d).length - 1) = [b] :=
      (List.cons.injEq .. ▸ hstep).2.symm
    have hstep2 := drop_eq_getD_cons hd1
    rw [htail] at hstep2
    exact (List.cons.injEq .. ▸ hstep2).1.symm

theorem rootKey_pair {d : Str} {a b : Str} (hab : lastTwo (splitDot d) = [a, b]) :
    rootKey d = a ++ '.' :: b := by
  unfold rootKey
  rw [hab]
  rfl

theorem eligible_iff {d : Str} : eligible d = true ↔ 2 ≤ (splitDot d).length := by
  unfold eligible
  exact decide_eq_true_iff

theorem mem_group {L : List Str} {r d : Str} :
    d ∈ group L r ↔ d ∈ L ∧ eligible d = true ∧ rootKey d = r := by
  unfold group
  rw [List.mem_filter, Bool.and_eq_true, beq_iff_eq]

theorem exists_mem_group {L : List Str} {r : Str} (hr : r ∈ roots L) : ∃ d, d ∈ group L r := by
  unfold roots at hr
  rw [List.mem_dedup] at hr
  obtain ⟨d, hd, hdr⟩ := List.mem_map.1 hr
  rw [List.mem_filter] at hd
  exact ⟨d, mem_group.2 ⟨hd.1, hd.2, hdr⟩⟩

theorem group_ne_nil {L : List Str} {r : Str} (hr : r ∈ roots L) : group L r ≠ [] := by
  obtain ⟨d, hd⟩ := exists_mem_group hr
  exact List.ne_nil_of_mem hd

theorem processGroup_of_multi {g : List Str} (hlen : g.length ≠ 1) :
    processGroup g =
      if find_common_suffix g ≠ [] ∧ 2 ≤ (splitDot (find_common_suffix g)).length then
        if g.all (fun d => d == find_common_suffix g || ('.' :: find_common_suffix g).isSuffixOf d)
        then [find_common_suffix g] else g
      else g := by
  unfold processGroup
  rw [if_neg hlen]

theorem processGroup_spec (L : List Str) (r : Str) (hr : r ∈ roots L) :
    ∃ e, processGroup (group L r) = [e] ∧ eligible e = true ∧ rootKey e = r ∧
      (e ∈ L ∨ ∃ d ∈ L, 2 ≤ (splitDot e).length ∧ splitDot e <:+ splitDot d) ∧
      (∀ d ∈ group L r, d = e ∨ ('.' :: e) <:+ d) := by
  have hgne : group L r ≠ [] := group_ne_nil hr
  have hmem : ∀ d ∈ group L r, d ∈ L ∧ eligible d = true ∧ rootKey d = r :=
    fun d hd => mem_group.1 hd
  by_cases hlen : (group L r).length = 1
  · obtain ⟨e, he⟩ := List.length_eq_one.1 hlen
    have hein : e ∈ group L r := by rw [he]; exact List.mem_cons_self e []
    refine ⟨e, ?_, (hmem e hein).2.1, (hmem e hein).2.2, Or.inl (hmem e hein).1, ?_⟩
    · unfold processGroup
      rw [if_pos hlen, he]
      rfl
    · intro d hd
      rw [he] at hd
      exact Or.inl (List.mem_singleton.1 hd)
  · set g := group L r with hgdef
    obtain ⟨d₀, grest, hg0⟩ := List.exists_cons_of_ne_nil hgne
    have hd₀ : d₀ ∈ g := by rw [hg0]; exact List.mem_cons_self _ _
    have he₀ := hmem d₀ hd₀
    have h2₀ : 2 ≤ (splitDot d₀).length := eligible_iff.1 he₀.2.1
    obtain ⟨a, b, hab₀, hnda, hndb, hga₀, hgb₀⟩ := lastTwo_pair h2₀
    have hrab : r = a ++ '.' :: b := by rw [← he₀.2.2, rootKey_pair hab₀]
    have hshare : ∀ d ∈ g, (splitDot d).getD ((splitDot d).length - 2) [] = a ∧
        (splitDot d).getD ((splitDot d).length - 1) [] = b := by
      intro d hd
      have he := hmem d hd
      have h2 : 2 ≤ (splitDot d).length := eligible_iff.1 he.2.1
      obtain ⟨a', b', hab', hnda', hndb', hga', hgb'⟩ := lastTwo_pair h2
      have heq : a' ++ '.' :: b' = a ++ '.' :: b := by
        rw [← rootKey_pair hab', he.2.2, hrab]
      obtain ⟨haa, hbb⟩ := dot_pair_inj hnda' hnda heq
      exact ⟨haa ▸ hga', hbb ▸ hgb'⟩
    have hels : ∀ d ∈ g, 2 ≤ (splitDot d).length := fun d hd => eligible_iff.1 (hmem d hd).2.1
    have hmin2 : 2 ≤ fcsMin g := two_le_fcsMin hgne hels
    have hdpsne : g.map splitDot ≠ [] := by rw [hg0]; simp
    have hb : ∀ p ∈ g.map splitDot, p.getD (p.length - 1) [] = b := by
      intro p hp
      obtain ⟨d, hd, rfl⟩ := List.mem_map.1 hp
      exact (hshare d hd).2
    have ha : ∀ p ∈ g.map splitDot, p.getD (p.length - 2) [] = a := by
      intro p hp
      obtain ⟨d, hd, rfl⟩ := List.mem_map.1 hp
      exact (hshare d hd).1
    obtain ⟨t, hsl⟩ := suffixLoop_two hdpsne hmin2 hb ha
    have hslne : suffixLoop (g.map splitDot) (fcsMin g) 1 ≠ [] := by
      rw [hsl]; simp
    have hsplit : splitDot (find_common_suffix g) = suffixLoop (g.map splitDot) (fcsMin g) 1 :=
      fcs_splitDot hgne hslne
    have hcslen : 2 ≤ (splitDot (find_common_suffix g)).length := by
      rw [hsplit, hsl, List.length_append]
      simp
    have hcsne : find_common_suffix g ≠ [] := by
      intro h
      rw [h] at hcslen
      simp [splitDot] at hcslen
    have hcov : ∀ d ∈ g, d = find_common_suffix g ∨ ('.' :: find_common_suffix g) <:+ d :=
      fun d hd => covered_of_fcs hgne hd hslne
    have hcovb : g.all
        (fun d => d == find_common_suffix g || ('.' :: find_common_suffix g).isSuffixOf d) = true := by
      refine List.all_eq_true.2 ?_
      intro d hd
      rcases hcov d hd with h | h
      · simp [h]
      · simp [List.isSuffixOf_iff_suffix, h]
    have hpg : processGroup g = [find_common_suffix g] := by
      rw [processGroup_of_multi hlen, if_pos ⟨hcsne, hcslen⟩, if_pos hcovb]
    have hlast : lastTwo (splitDot (find_common_suffix g)) = [a, b] := by
      rw [hsplit, hsl]
      unfold lastTwo
      have e : (t ++ [a, b]).length - 2 = t.length := by simp
      rw [e, List.drop_left]
    have hrk : rootKey (find_common_suffix g) = r := by
      rw [rootKey_pair hlast, hrab]
    refine ⟨find_common_suffix g, hpg, eligible_iff.2 hcslen, hrk, ?_, hcov⟩
    right
    exact ⟨d₀, he₀.1, hcslen, hsplit ▸ fcs_labels_suffix hd₀⟩

theorem mem_optimiseList {L : List Str} {x : Str} :
    x ∈ optimiseList L ↔ ∃ r ∈ roots L, x ∈ processGroup (group L r) := by
  unfold optimiseList
  rw [List.mem_flatten]
  constructor
  · rintro ⟨l, hl, hx⟩
    obtain ⟨r, hr, rfl⟩ := List.mem_map.1 hl
    exact ⟨r, hr, hx⟩
  · rintro ⟨r, hr, hx⟩
    exact ⟨processGroup (group L r), List.mem_map_of_mem _ hr, hx⟩

theorem mem_optimise_domains {D : Finset Str} {x : Str} :
    x ∈ optimise_domains D ↔ ∃ r ∈ roots (pySorted D), x ∈ processGroup (group (pySorted D) r) := by
  unfold optimise_domains
  rw [List.mem_toFinset]
  exact mem_optimiseList

theorem optimise_elem_full {D : Finset Str} {x : Str} (hx : x ∈ optimise_domains D) :
    eligible x = true ∧ rootKey x ∈ roots (pySorted D) ∧
      processGroup (group (pySorted D) (rootKey x)) = [x] ∧
      (x ∈ D ∨ ∃ d ∈ D, 2 ≤ (splitDot x).length ∧ splitDot x <:+ splitDot d) := by
  obtain ⟨r, hr, hxin⟩ := mem_optimise_domains.1 hx
  obtain ⟨e, hpg, helig, hrk, hlineage, hcov⟩ := processGroup_spec _ r hr
  rw [hpg, List.mem_singleton] at hxin
  subst hxin
  refine ⟨helig, by rw [hrk]; exact hr, by rw [hrk]; exact hpg, ?_⟩
  rcases hlineage with h | ⟨d, hd, h2, hsuf⟩
  · exact Or.inl (mem_pySorted.1 h)
  · exact Or.inr ⟨d, mem_pySorted.1 hd, h2, hsuf⟩

theorem optimise_rootKey_inj {D : Finset Str} {x y : Str} (hx : x ∈ optimise_domains D)
    (hy : y ∈ optimise_domains D) (hxy : rootKey x = rootKey y) : x = y := by
  have h1 := (optimise_elem_full hx).2.2.1
  have h2 := (optimise_elem_full hy).2.2.1
  rw [hxy, h2] at h1
  exact ((List.cons.injEq .. ▸ h1).1 : y = x).symm

theorem flatten_length_of_singletons : ∀ (ll : List (List Str)),
    (∀ l ∈ ll, l.length = 1) → ll.flatten.length = ll.length := by
  intro ll
  induction ll with
  | nil => intro _; rfl
  | cons l ls ih =>
    intro h
    rw [List.flatten_cons, List.length_append, ih (fun m hm => h m (List.mem_cons_of_mem l hm)),
      h l (List.mem_cons_self l ls), List.length_cons, Nat.add_comm]

theorem optimiseList_length (L : List Str) : (optimiseList L).length = (roots L).length := by
  unfold optimiseList
  rw [flatten_length_of_singletons, List.length_map]
  intro l hl
  obtain ⟨r, hr, rfl⟩ := List.mem_map.1 hl
  obtain ⟨e, hpg, _⟩ := processGroup_spec L r hr
  rw [hpg]
  rfl

theorem filter_eq_singleton {l : List Str} {x : Str} {p : Str → Bool} (hnd : l.Nodup)
    (hx : x ∈ l) (hpx : p x = true) (huniq : ∀ y ∈ l, p y = true → y = x) :
    l.filter p = [x] := by
  induction l with
  | nil => simp at hx
  | cons a tl ih =>
    have hand := List.nodup_cons.1 hnd
    rcases List.mem_cons.1 hx with h | h
    · subst h
      rw [List.filter_cons_of_pos hpx]
      have : tl.filter p = [] := by
        rw [List.filter_eq_nil_iff]
        intro y hy hp
        exact absurd (huniq y (List.mem_cons_of_mem _ hy) hp ▸ hy) hand.1
      rw [this]
    · have hpa : p a = false := by
        by_contra hcon
        have : a = x := huniq a (List.mem_cons_self a tl) (Bool.not_eq_false _ ▸ hcon)
        exact absurd (this ▸ h) hand.1
      rw [List.filter_cons_of_neg (by simp [hpa])]
      exact ih hand.2 h (fun y hy hp => huniq y (List.mem_cons_of_mem _ hy) hp)

theorem flatten_map_singleton : ∀ (l : List Str), (l.map (fun x => [x])).flatten = l := by
  intro l
  induction l with
  | nil => rfl
  | cons a tl ih => simp only [List.map_cons, List.flatten_cons, List.singleton_append, ih]

theorem optimiseList_of_fixed {L : List Str} (hnd : L.Nodup)
    (helig : ∀ x ∈ L, eligible x = true)
    (hinj : ∀ x ∈ L, ∀ y ∈ L, rootKey x = rootKey y → x = y) :
    optimiseList L = L := by
  unfold optimiseList
  have hfe : L.filter eligible = L := List.filter_eq_self.2 helig
  have hnodmap : (L.map rootKey).Nodup := List.Nodup.map_on hinj hnd
  have hroots : roots L = L.map rootKey := by
    unfold roots
    rw [hfe, List.dedup_eq_self.2 hnodmap]
  rw [hroots, List.map_map]
  have hmapeq : L.map ((fun r => processGroup (group L r)) ∘ rootKey) =
      L.map (fun x => [x]) := by
    refine List.map_congr_left ?_
    intro x hx
    have hgx : group L (rootKey x) = [x] := by
      refine filter_eq_singleton hnd hx ?_ ?_
      · simp [helig x hx]
      · intro y hy hpy
        rw [Bool.and_eq_true, beq_iff_eq] at hpy
        exact hinj y hy x hx hpy.2
    simp only [Function.comp_apply, hgx]
    rfl
  rw [hmapeq, flatten_map_singleton]
/-- Embedding of `DomainProcessor.format_for_ublacklist`:
`f"*://*.{domain}/*"`. -/
def format_for_ublacklist (domain : Str) : Str :=
  "*://*.".toList ++ domain ++ "/*".toList

/-- The `ublacklist_entries` list built by `process_category`: one formatted
pattern per optimised domain, in the order produced by `sorted`, which
compares the raw domain strings. -/
def ublacklist_entries (S : Finset Str) : List Str :=
  (pySorted S).map format_for_ublacklist

/-- Inverse of the fixed pattern wrapper: strips the leading `*://*.` and the
trailing `/*` from a formatted pattern line. -/
def stripPattern (l : Str) : Str := (l.drop 6).take ((l.drop 6).length - 2)

theorem stripPattern_format (d : Str) : stripPattern (format_for_ublacklist d) = d := by
  unfold stripPattern format_for_ublacklist
  have h6 : ("*://*.".toList).length = 6 := rfl
  rw [List.append_assoc, ← h6, List.drop_left]
  have h2 : (d ++ "/*".toList).length - 2 = d.length := by simp
  rw [h2, List.take_left]

/-- The whitespace class of Python `str.split()` and `str.strip()` (ASCII
whitespace; the sources contain no exotic Unicode spacing). -/
def pyIsSpace (c : Char) : Bool :=
  c == ' ' || c == '\t' || c == '\n' || c == '\r' || c == '\x0b' || c == '\x0c'

/-- Embedding of `str.strip()`. -/
def pyStrip (s : Str) : Str :=
  ((s.dropWhile pyIsSpace).reverse.dropWhile pyIsSpace).reverse

/-- Worker for `str.split()` (split on whitespace runs, dropping empty
pieces); `acc` holds the reversed current word. -/
def wordsAux : Str → Str → List Str
  | [], acc => if acc = [] then [] else [acc.reverse]
  | c :: cs, acc =>
    if pyIsSpace c then
      if acc = [] then wordsAux cs [] else acc.reverse :: wordsAux cs []
    else wordsAux cs (c :: acc)

/-- Embedding of `str.split()` with no separator argument. -/
def pySplitWs (s : Str) : List Str := wordsAux s []

/-- Embedding of `s.split(c)[0]`: everything before the first occurrence of
`c` (the whole string when `c` does not occur). -/
def takeUntil (c : Char) (s : Str) : Str := s.takeWhile (· != c)

/-- Embedding of `DomainProcessor.extract_domain_from_hosts`: `None` models
the Python `None` returned on lines that do not match the hosts shape. -/
def extract_domain_from_hosts (line : Str) : Option Str :=
  let parts := pySplitWs (pyStrip line)
  if 2 ≤ parts.length ∧
      (parts.headD [] = "0.0.0.0".toList ∨ parts.headD [] = "127.0.0.1".toList) then
    some (pyStrip (takeUntil '#' (pyStrip (parts.getD 1 []))))
  else none

/-- Embedding of `str.lower()`. -/
def lowerStr (s : Str) : Str := s.map Char.toLower

/-- Embedding of `re.sub(r"^https?://", "", domain)`. -/
def stripScheme (d : Str) : Str :=
  if List.isPrefixOf "http://".toList d then d.drop 7
  else if List.isPrefixOf "https://".toList d then d.drop 8
  else d

/-- Embedding of `DomainProcessor.normalise_domain`. -/
def normalise_domain (domain : Str) : Str :=
  takeUntil ':' (takeUntil '/' (stripScheme (lowerStr (pyStrip domain))))

/-- Worker for `str.splitlines()` (splits on `\n`, `\r\n` and `\r`; no entry
for a trailing terminator, and the empty string has no lines). -/
def splitLinesAux : Str → Str → List Str
  | [], acc => if acc = [] then [] else [acc.reverse]
  | '\r' :: '\n' :: cs, acc => acc.reverse :: splitLinesAux cs []
  | '\n' :: cs, acc => acc.reverse :: splitLinesAux cs []
  | '\r' :: cs, acc => acc.reverse :: splitLinesAux cs []
  | c :: cs, acc => splitLinesAux cs (c :: acc)

/-- Embedding of `str.splitlines()`. -/
def pySplitLines (s : Str) : List Str := splitLinesAux s []

/-- The domain contributed by one line of the `process_source` loop (if any):
blank and `#` lines are skipped, then the branch for the source type runs.
In the hosts branch the `if domain:` truthiness test inspects the raw
extracted token, before normalisation; in the domain branch the test runs on
the normalised result and also requires a dot. -/
def processLine (line : Str) (source_type : String) : Option Str :=
  let l := pyStrip line
  if l = [] then none
  else if l.headD ' ' = '#' then none
  else if source_type = "hosts" then
    match extract_domain_from_hosts l with
    | none => none
    | some d => if d = [] then none else some (normalise_domain d)
  else if source_type = "domain" then
    let d := normalise_domain l
    if d ≠ [] ∧ ('.' : Char) ∈ d then some d else none
  else none

/-- Embedding of `DomainProcessor.process_source`. -/
def process_source (content : Str) (source_type : String) : Finset Str :=
  ((pySplitLines content).filterMap (fun line => processLine line source_type)).toFinset

/-- The methods the source defines on `DomainProcessor` (class body of
`generate_blocklist.py`). -/
def domainProcessorMethods : List String :=
  ["__init__", "extract_domain_from_hosts", "normalise_domain", "find_common_suffix",
   "optimise_domains", "format_for_ublacklist", "process_source"]

/-- The whitelist step of `process_category`: with a non-empty whitelist the
source calls `processor.apply_whitelist(all_domains, whitelist)`; Python
resolves the attribute at call time, so the call raises `AttributeError`
(modelled as `none`) unless `apply_whitelist` is among the methods of
`DomainProcessor`. -/
def applyWhitelistStep (domains whitelist : Finset Str) : Option (Finset Str) :=
  if whitelist = ∅ then some domains
  else if "apply_whitelist" ∈ domainProcessorMethods then some (domains \ whitelist)
  else none

/-- Exception-propagating evaluation of a list of fallible computations, as in
a Python list comprehension. -/
def seqOption {α β : Type} (f : α → Option β) : List α → Option (List β)
  | [] => some []
  | x :: xs =>
    match f x, seqOption f xs with
    | some y, some ys => some (y :: ys)
    | _, _ => none

/-- Checked embedding of the negative index `parts[-i]`: Python raises
`IndexError` (modelled as `none`) unless `1 ≤ i ≤ len(parts)`. -/
def negGetO (p : List Str) (i : Nat) : Option Str :=
  if 1 ≤ i ∧ i ≤ p.length then p[p.length - i]? else none

/-- Worker for `suffixLoopO`, the exception-aware variant of `suffixLoop`:
every list indexing of the source is checked. -/
def suffixLoopFO : Nat → List (List Str) → Nat → Nat → Option (List Str)
  | 0, _, _, _ => some []
  | fuel + 1, dps, minLen, i =>
    if i ≤ minLen then
      match seqOption (fun p => negGetO p i) dps with
      | none => none
      | some xs =>
        if allSame xs then
          match suffixLoopFO fuel dps minLen (i + 1), xs[0]? with
          | some rest, some h => some (rest ++ [h])
          | _, _ => none
        else some []
    else some []

/-- Exception-aware variant of `suffixLoop`. -/
def suffixLoopO (dps : List (List Str)) (minLen i : Nat) : Option (List Str) :=
  suffixLoopFO (minLen + 1 - i) dps minLen i

/-- Exception-aware embedding of `find_common_suffix`: `min` over an empty
sequence and every list indexing are checked; `none` models an uncaught
exception. -/
def find_common_suffixO (domains : List Str) : Option Str :=
  if domains = [] then some []
  else
    match listMin ((domains.map splitDot).map List.length) with
    | none => none
    | some minLen =>
      match suffixLoopO (domains.map splitDot) minLen 1 with
      | none => none
      | some sl => some (joinDot sl)

/-- Exception-aware embedding of the per-group body of `optimise_domains`
(the `group_domains[0]` indexing and the call to `find_common_suffix` are
checked). -/
def processGroupO (g : List Str) : Option (List Str) :=
  if g.length = 1 then
    match g[0]? with
    | none => none
    | some d => some [d]
  else
    match find_common_suffixO g with
    | none => none
    | some cs =>
      if cs ≠ [] ∧ 2 ≤ (splitDot cs).length then
        if g.all (fun d => d == cs || ('.' :: cs).isSuffixOf d) then some [cs] else some g
      else some g

/-- Exception-aware embedding of `optimise_domains`. -/
def optimise_domainsO (D : Finset Str) : Option (Finset Str) :=
  match seqOption (fun r => processGroupO (group (pySorted D) r)) (roots (pySorted D)) with
  | none => none
  | some parts => some parts.flatten.toFinset

theorem seqOption_eq_some {α β : Type} {f : α → Option β} {g : α → β} :
    ∀ {l : List α}, (∀ x ∈ l, f x = some (g x)) → seqOption f l = some (l.map g) := by
  intro l
  induction l with
  | nil => intro _; rfl
  | cons x xs ih =>
    intro h
    have h1 := h x (List.mem_cons_self x xs)
    have h2 := ih (fun y hy => h y (List.mem_cons_of_mem x hy))
    simp [seqOption, h1, h2]

theorem negGetO_eq {p : List Str} {i : Nat} (h1 : 1 ≤ i) (h2 : i ≤ p.length) :
    negGetO p i = some (p.getD (p.length - i) []) := by
  unfold negGetO
  rw [if_pos ⟨h1, h2⟩]
  have hlt : p.length - i < p.length := by omega
  rw [List.getElem?_eq_getElem hlt, List.getD_eq_getElem?_getD, List.getElem?_eq_getElem hlt]
  rfl

theorem getElemZero_headD {xs : List Str} (h : xs ≠ []) : xs[0]? = some (xs.headD []) := by
  match xs with
  | x :: rest => simp

theorem suffixLoopFO_eq : ∀ (fuel : Nat) (dps : List (List Str)) (minLen i : Nat),
    dps ≠ [] → (∀ p ∈ dps, minLen ≤ p.length) → 1 ≤ i →
    suffixLoopFO fuel dps minLen i = some (suffixLoopF fuel dps minLen i) := by
  intro fuel
  induction fuel with
  | zero => intro dps minLen i _ _ _; rfl
  | succ fuel ih =>
    intro dps minLen i hne hm h1
    by_cases hi : i ≤ minLen
    · have hseq : seqOption (fun p => negGetO p i) dps =
          some (dps.map (fun p => p.getD (p.length - i) [])) :=
        seqOption_eq_some (fun p hp => negGetO_eq h1 (le_trans hi (hm p hp)))
      simp only [suffixLoopFO, suffixLoopF, if_pos hi, hseq]
      by_cases hall : allSame (dps.map (fun p => p.getD (p.length - i) [])) = true
      · rw [if_pos hall, if_pos hall, ih dps minLen (i + 1) hne hm (by omega)]
        have hmapne : dps.map (fun p => p.getD (p.length - i) []) ≠ [] := by
          simpa using hne
        rw [getElemZero_headD hmapne]
      · rw [if_neg hall, if_neg hall]
    · simp only [suffixLoopFO, suffixLoopF, if_neg hi]

theorem find_common_suffixO_eq (g : List Str) :
    find_common_suffixO g = some (find_common_suffix g) := by
  by_cases hg : g = []
  · subst hg; rfl
  · unfold find_common_suffixO find_common_suffix
    rw [if_neg hg, if_neg hg]
    rcases hmin : listMin ((g.map splitDot).map List.length) with _ | m
    · match g, hg with
      | d :: ds, _ => simp [listMin] at hmin
    · have hfm : fcsMin g = m := by unfold fcsMin; rw [hmin]; rfl
      have hdpsne : g.map splitDot ≠ [] := by simpa using hg
      have hmle : ∀ p ∈ g.map splitDot, m ≤ p.length := by
        intro p hp
        obtain ⟨d, hd, rfl⟩ := List.mem_map.1 hp
        exact listMin_le hmin _ (List.mem_map_of_mem _ (List.mem_map_of_mem _ hd))
      have hslo : suffixLoopO (g.map splitDot) m 1 = some (suffixLoop (g.map splitDot) m 1) :=
        suffixLoopFO_eq (m + 1 - 1) (g.map splitDot) m 1 hdpsne hmle (by omega)
      show (match suffixLoopO (g.map splitDot) m 1 with
            | none => none
            | some sl => some (joinDot sl)) =
          some (joinDot (suffixLoop (g.map splitDot) (fcsMin g) 1))
      rw [hslo, hfm]

theorem processGroupO_eq (g : List Str) : processGroupO g = some (processGroup g) := by
  by_cases hlen : g.length = 1
  · obtain ⟨e, rfl⟩ := List.length_eq_one.1 hlen
    rfl
  · unfold processGroupO processGroup
    rw [if_neg hlen, if_neg hlen, find_common_suffixO_eq g]
    by_cases h1 : find_common_suffix g ≠ [] ∧ 2 ≤ (splitDot (find_common_suffix g)).length
    · by_cases h2 : (g.all fun d =>
          d == find_common_suffix g || ('.' :: find_common_suffix g).isSuffixOf d) = true
      · simp only [h1, h2, if_pos, if_true, and_self]
        simp [h1, h2]
      · simp [h1, h2]
    · simp [h1]

theorem wordsAux_all_space : ∀ {t : Str}, (∀ c ∈ t, pyIsSpace c = true) →
    ∀ (acc : Str), wordsAux t acc = if acc = [] then [] else [acc.reverse] := by
  intro t
  induction t with
  | nil => intro _ acc; rfl
  | cons c cs ih =>
    intro h acc
    have hc : pyIsSpace c = true := h c (List.mem_cons_self c cs)
    have ihcs := ih (fun x hx => h x (List.mem_cons_of_mem c hx))
    simp only [wordsAux, hc, if_true]
    by_cases hacc : acc = []
    · rw [if_pos hacc, if_pos hacc, ihcs []]
      simp
    · rw [if_neg hacc, if_neg hacc, ihcs []]
      simp

theorem wordsAux_append_space {t : Str} (ht : ∀ c ∈ t, pyIsSpace c = true) :
    ∀ (s acc : Str), wordsAux (s ++ t) acc = wordsAux s acc := by
  intro s
  induction s with
  | nil =>
    intro acc
    rw [List.nil_append, wordsAux_all_space ht acc]
    rfl
  | cons c cs ih =>
    intro acc
    simp only [List.cons_append, wordsAux, List.append_eq]
    rw [ih [], ih (c :: acc)]

theorem wordsAux_prepend_space : ∀ {t : Str}, (∀ c ∈ t, pyIsSpace c = true) →
    ∀ (s : Str), wordsAux (t ++ s) [] = wordsAux s [] := by
  intro t
  induction t with
  | nil => intro _ s; rfl
  | cons c cs ih =>
    intro h s
    have hc := h c (List.mem_cons_self c cs)
    simp only [List.cons_append, wordsAux, hc, if_true, if_pos rfl]
    exact ih (fun x hx => h x (List.mem_cons_of_mem c hx)) s

theorem pySplitWs_strip (s : Str) : pySplitWs (pyStrip s) = pySplitWs s := by
  unfold pySplitWs pyStrip
  set m := s.dropWhile pyIsSpace with hm
  have h1 : wordsAux s [] = wordsAux m [] := by
    conv_lhs => rw [← List.takeWhile_append_dropWhile pyIsSpace s]
    exact wordsAux_prepend_space (fun c hc => List.mem_takeWhile_imp hc) m
  have h2 : m = (m.reverse.dropWhile pyIsSpace).reverse ++ (m.reverse.takeWhile pyIsSpace).reverse := by
    conv_lhs => rw [← List.reverse_reverse m, ← List.takeWhile_append_dropWhile pyIsSpace m.reverse]
    rw [List.reverse_append]
  have h3 : wordsAux m [] = wordsAux ((m.reverse.dropWhile pyIsSpace).reverse) [] := by
    conv_lhs => rw [h2]
    exact wordsAux_append_space
      (fun c hc => List.mem_takeWhile_imp (List.mem_reverse.1 hc)) _ []
  rw [h1, h3]

theorem wordsAux_tokens : ∀ (s acc : Str), (∀ c ∈ acc, pyIsSpace c = false) →
    ∀ t ∈ wordsAux s acc, t ≠ [] ∧ ∀ c ∈ t, pyIsSpace c = false := by
  intro s
  induction s with
  | nil =>
    intro acc hacc t ht
    simp only [wordsAux] at ht
    by_cases h : acc = []
    · rw [if_pos h] at ht
      simp at ht
    · rw [if_neg h] at ht
      rw [List.mem_singleton] at ht
      subst ht
      exact ⟨by simpa using h, fun c hc => hacc c (List.mem_reverse.1 hc)⟩
  | cons c cs ih =>
    intro acc hacc t ht
    by_cases hc : pyIsSpace c = true
    · simp only [wordsAux, hc, if_true] at ht
      by_cases h : acc = []
      · rw [if_pos h] at ht
        exact ih [] (by simp) t ht
      · rw [if_neg h] at ht
        rcases List.mem_cons.1 ht with h' | h'
        · subst h'
          exact ⟨by simpa using h, fun x hx => hacc x (List.mem_reverse.1 hx)⟩
        · exact ih [] (by simp) t h'
    · have hcf : pyIsSpace c = false := by simpa using hc
      simp only [wordsAux, hcf, Bool.false_eq_true, if_false] at ht
      refine ih (c :: acc) ?_ t ht
      intro x hx
      rcases List.mem_cons.1 hx with h' | h'
      · subst h'; exact hcf
      · exact hacc x h'

theorem wordsAux_acc_head : ∀ (s acc : Str), acc ≠ [] →
    ∃ t ts, wordsAux s acc = (acc.reverse ++ t) :: ts := by
  intro s
  induction s with
  | nil =>
    intro acc h
    exact ⟨[], [], by simp [wordsAux, h]⟩
  | cons c cs ih =>
    intro acc h
    by_cases hc : pyIsSpace c = true
    · refine ⟨[], wordsAux cs [], ?_⟩
      simp [wordsAux, hc, h]
    · have hcf : pyIsSpace c = false := by simpa using hc
      obtain ⟨t, ts, heq⟩ := ih (c :: acc) (by simp)
      refine ⟨[c] ++ t, ts, ?_⟩
      simp only [wordsAux, hcf, Bool.false_eq_true, if_false, heq, List.reverse_cons]
      rw [List.append_assoc]

theorem dropWhile_eq_self_of_all_neg {l : Str} (h : ∀ c ∈ l, pyIsSpace c = false) :
    l.dropWhile pyIsSpace = l := by
  match l with
  | [] => rfl
  | c :: cs =>
    rw [List.dropWhile_cons]
    simp [h c (List.mem_cons_self c cs)]

theorem pyStrip_eq_self {l : Str} (h : ∀ c ∈ l, pyIsSpace c = false) : pyStrip l = l := by
  unfold pyStrip
  rw [dropWhile_eq_self_of_all_neg h,
    dropWhile_eq_self_of_all_neg (fun c hc => h c (List.mem_reverse.1 hc)), List.reverse_reverse]

theorem splitLinesAux_cons_other {c : Char} {cs acc : Str} (hcn : c ≠ '\n') (hcr : c ≠ '\r') :
    splitLinesAux (c :: cs) acc = splitLinesAux cs (c :: acc) := by
  rw [splitLinesAux.eq_def]
  split
  · simp_all
  · rename_i hmatch; rw [List.cons.injEq] at hmatch; exact absurd hmatch.1 hcr
  · rename_i hmatch; rw [List.cons.injEq] at hmatch; exact absurd hmatch.1 hcn
  · rename_i hmatch; rw [List.cons.injEq] at hmatch; exact absurd hmatch.1 hcr
  · rename_i hmatch
    rw [List.cons.injEq] at hmatch
    rw [← hmatch.1, ← hmatch.2]

theorem splitLines_no_newline : ∀ (s : Str), ('\n' : Char) ∉ s → ('\r' : Char) ∉ s →
    ∀ acc : Str, splitLinesAux s acc = if s = [] ∧ acc = [] then [] else [acc.reverse ++ s] := by
  intro s
  induction s with
  | nil =>
    intro _ _ acc
    by_cases h : acc = [] <;> simp [splitLinesAux, h]
  | cons c cs ih =>
    intro hn hr acc
    have hcn : c ≠ '\n' := fun h => hn (h ▸ List.mem_cons_self c cs)
    have hcr : c ≠ '\r' := fun h => hr (h ▸ List.mem_cons_self c cs)
    rw [splitLinesAux_cons_other hcn hcr]
    rw [ih (fun h => hn (List.mem_cons_of_mem c h)) (fun h => hr (List.mem_cons_of_mem c h))
      (c :: acc)]
    rw [if_neg (by simp), if_neg (by simp)]
    simp

theorem process_source_single {line : Str} (hn : ('\n' : Char) ∉ line)
    (hr : ('\r' : Char) ∉ line) (st : String) :
    process_source line st =
      (match processLine line st with
       | none => (∅ : Finset Str)
       | some d => {d}) := by
  unfold process_source pySplitLines
  rw [splitLines_no_newline line hn hr []]
  by_cases hl : line = []
  · subst hl
    rw [if_pos ⟨rfl, rfl⟩]
    have : processLine [] st = none := rfl
    rw [this]
    rfl
  · rw [if_neg (by simp [hl])]
    simp only [List.reverse_nil, List.nil_append]
    rcases hpl : processLine line st with _ | d
    · simp [hpl]
    · simp [hpl]

/-- Behaviour of the hosts variant of `process_source` on a single line, as
the amended claim C9 states it: a domain is contributed exactly when the
whitespace-split line has a first token equal to `0.0.0.0` or `127.0.0.1`
and a second token whose part before any `#` is non-empty; the contribution
is that part, normalised. -/
def hostsLinePredicted (line : Str) : Finset Str :=
  if 2 ≤ (pySplitWs line).length ∧
      ((pySplitWs line).headD [] = "0.0.0.0".toList ∨
        (pySplitWs line).headD [] = "127.0.0.1".toList) ∧
      takeUntil '#' ((pySplitWs line).getD 1 []) ≠ [] then
    {normalise_domain (takeUntil '#' ((pySplitWs line).getD 1 []))}
  else ∅

theorem hash_not_ip {t : List Char} :
    ¬('#' :: t = "0.0.0.0".toList ∨ '#' :: t = "127.0.0.1".toList) := by
  rintro (h | h)
  · have h' := congrArg List.head? h
    rw [show ("0.0.0.0".toList).head? = some '0' from rfl] at h'
    simp only [List.head?_cons, Option.some.injEq] at h'
    exact absurd h' (by decide)
  · have h' := congrArg List.head? h
    rw [show ("127.0.0.1".toList).head? = some '1' from rfl] at h'
    simp only [List.head?_cons, Option.some.injEq] at h'
    exact absurd h' (by decide)

/-- Claim C9 (amended): for every single line fed to the hosts variant of
`process_source`, a domain is contributed exactly when the whitespace-split
line's first token is exactly `0.0.0.0` or `127.0.0.1`, a second token
exists, and the part of the second token before any inline `#` is non-empty;
the contributed domain is that part, normalised.  (The original claim omitted
the last condition: a second token starting with `#` matches the shape but
contributes nothing, because the truthiness test `if domain:` rejects the
empty extracted string.) -/
theorem claim9_hosts_extraction (line : Str) (hn : ('\n' : Char) ∉ line)
    (hr : ('\r' : Char) ∉ line) :
    process_source line "hosts" = hostsLinePredicted line := by
  rw [process_source_single hn hr]
  unfold hostsLinePredicted
  by_cases hl : pyStrip line = []
  · have htoks : pySplitWs line = [] := by rw [← pySplitWs_strip, hl]; rfl
    have hpl : processLine line "hosts" = none := by
      simp only [processLine]
      rw [if_pos hl]
    rw [hpl, htoks, if_neg]
    rintro ⟨h2, _, _⟩
    simp at h2
  · obtain ⟨c, lrest, hcons⟩ := List.exists_cons_of_ne_nil hl
    have hwords : pySplitWs (pyStrip line) = pySplitWs line := pySplitWs_strip line
    by_cases hhash : c = '#'
    · subst hhash
      have hpl : processLine line "hosts" = none := by
        simp only [processLine]
        rw [if_neg hl, hcons]
        simp only [List.headD_cons]
        simp
      obtain ⟨t, ts, hw⟩ := wordsAux_acc_head lrest ['#'] (by simp)
      have hfull : pySplitWs line = ('#' :: t) :: ts := by
        rw [← hwords, hcons]
        show wordsAux ('#' :: lrest) [] = _
        have hred : wordsAux ('#' :: lrest) [] = wordsAux lrest ['#'] := rfl
        rw [hred, hw]
        rfl
      rw [hpl, hfull, if_neg]
      rintro ⟨_, hip, _⟩
      rw [List.headD_cons] at hip
      exact hash_not_ip hip
    · have hplred : processLine line "hosts" =
          (match extract_domain_from_hosts (c :: lrest) with
           | none => none
           | some d => if d = [] then none else some (normalise_domain d)) := by
        simp only [processLine]
        rw [if_neg hl, hcons]
        simp only [List.headD_cons]
        rw [if_neg hhash]
        simp
      have hextoks : pySplitWs (pyStrip (c :: lrest)) = pySplitWs line := by
        rw [← hcons, pySplitWs_strip (pyStrip line), hwords]
      rcases htoks : pySplitWs line with _ | ⟨t0, rest⟩
      · have hex : extract_domain_from_hosts (c :: lrest) = none := by
          simp only [extract_domain_from_hosts]
          rw [hextoks, htoks, if_neg]
          rintro ⟨h2, _⟩
          simp at h2
        rw [hplred, hex, if_neg]
        rintro ⟨h2, _, _⟩
        simp at h2
      · rcases rest with _ | ⟨t1, ts⟩
        · have hex : extract_domain_from_hosts (c :: lrest) = none := by
            simp only [extract_domain_from_hosts]
            rw [hextoks, htoks, if_neg]
            rintro ⟨h2, _⟩
            simp at h2
          rw [hplred, hex, if_neg]
          rintro ⟨h2, _, _⟩
          simp at h2
        · have hgd1 : (t0 :: t1 :: ts).getD 1 [] = t1 := rfl
          have hhd : (t0 :: t1 :: ts).headD [] = t0 := rfl
          by_cases hA : t0 = "0.0.0.0".toList ∨ t0 = "127.0.0.1".toList
          · have ht1mem : t1 ∈ pySplitWs line := by
              rw [htoks]
              exact List.mem_cons_of_mem _ (List.mem_cons_self _ _)
            have ht1props := wordsAux_tokens line [] (by simp) t1 ht1mem
            have ht1ws := ht1props.2
            have hstrip1 : pyStrip t1 = t1 := pyStrip_eq_self ht1ws
            have htuws : ∀ x ∈ takeUntil '#' t1, pyIsSpace x = false :=
              fun x hx => ht1ws x ((List.takeWhile_sublist _).subset hx)
            have hstrip2 : pyStrip (takeUntil '#' t1) = takeUntil '#' t1 :=
              pyStrip_eq_self htuws
            have hex : extract_domain_from_hosts (c :: lrest) = some (takeUntil '#' t1) := by
              simp only [extract_domain_from_hosts]
              rw [hextoks, htoks, if_pos]
              · rw [hgd1, hstrip1, hstrip2]
              · exact ⟨by simp, by rw [hhd]; exact hA⟩
            rw [hplred, hex, hgd1, hhd]
            show (match (if takeUntil '#' t1 = [] then none
                else some (normalise_domain (takeUntil '#' t1))) with
              | none => (∅ : Finset Str)
              | some d => {d}) =
              (if 2 ≤ (t0 :: t1 :: ts).length ∧
                  (t0 = "0.0.0.0".toList ∨ t0 = "127.0.0.1".toList) ∧
                  takeUntil '#' t1 ≠ [] then
                {normalise_domain (takeUntil '#' t1)}
              else ∅)
            by_cases he : takeUntil '#' t1 = []
            · have hcond : ¬(2 ≤ (t0 :: t1 :: ts).length ∧
                  (t0 = "0.0.0.0".toList ∨ t0 = "127.0.0.1".toList) ∧
                  takeUntil '#' t1 ≠ []) := by
                rintro ⟨_, _, hcon⟩
                exact hcon he
              rw [if_pos he, if_neg hcond]
            · rw [if_neg he, if_pos ⟨by simp, hA, he⟩]
          · have hex : extract_domain_from_hosts (c :: lrest) = none := by
              simp only [extract_domain_from_hosts]
              rw [hextoks, htoks, if_neg]
              rintro ⟨_, hcon⟩
              rw [hhd] at hcon
              exact hA hcon
            rw [hplred, hex, if_neg]
            rintro ⟨_, hcon, _⟩
            rw [hhd] at hcon
            exact hA hcon

theorem scenario_shared_parent :
    optimise_domains {"a.example.com".toList, "b.example.com".toList, "example.com".toList} =
      {"example.com".toList} := by decide

theorem scenario_distinct_roots : optimise_domains {"foo.com".toList, "bar.com".toList} =
    {"foo.com".toList, "bar.com".toList} := by decide

/-- Claim C1 (counterexample): an input domain with fewer than 2 dot-separated
labels is not emitted unchanged as its own singleton group — `optimise_domains`
drops it entirely (the grouping loop has no branch for `len(parts) < 2`), so
coverage fails for the input set `{"localhost"}`. -/
theorem claim1_counterexample :
    optimise_domains {("localhost".toList : Str)} = ∅ ∧
      ¬∃ c ∈ optimise_domains ({"localhost".toList} : Finset Str),
        "localhost".toList = c ∨ ('.' :: c) <:+ "localhost".toList := by
  constructor
  · decide
  · decide

/-- Claim C1 (amended): for every finite set of input domain strings `D` and
every `d ∈ D` with at least 2 dot-separated labels, `optimise_domains D`
contains an element `c` such that `d = c` or `d` ends with `"." ++ c`. -/
theorem claim1_coverage (D : Finset Str) (d : Str) (hd : d ∈ D)
    (h2 : 2 ≤ (splitDot d).length) :
    ∃ c ∈ optimise_domains D, d = c ∨ ('.' :: c) <:+ d := by
  have hdL : d ∈ pySorted D := mem_pySorted.2 hd
  have helig : eligible d = true := eligible_iff.2 h2
  have hroot : rootKey d ∈ roots (pySorted D) := by
    unfold roots
    rw [List.mem_dedup]
    exact List.mem_map_of_mem _ (List.mem_filter.2 ⟨hdL, helig⟩)
  obtain ⟨e, hpg, _, _, _, hcov⟩ := processGroup_spec (pySorted D) (rootKey d) hroot
  have hdg : d ∈ group (pySorted D) (rootKey d) := mem_group.2 ⟨hdL, helig, rfl⟩
  refine ⟨e, ?_, hcov d hdg⟩
  exact mem_optimise_domains.2
    ⟨rootKey d, hroot, by rw [hpg]; exact List.mem_cons_self e []⟩

/-- Witness for claim C1 (amended) at a concrete input. -/
theorem claim1_coverage_witness :
    "a.example.com".toList ∈
        ({"a.example.com".toList, "b.example.com".toList} : Finset Str) ∧
      2 ≤ (splitDot "a.example.com".toList).length ∧
      ∃ c ∈ optimise_domains ({"a.example.com".toList, "b.example.com".toList} : Finset Str),
        "a.example.com".toList = c ∨ ('.' :: c) <:+ "a.example.com".toList :=
  ⟨by decide, by decide, claim1_coverage _ _ (by decide) (by decide)⟩

/-- Claim C2: the whitelist step of `process_category` calls
`processor.apply_whitelist`, but `DomainProcessor` defines no such method, so
with a non-empty whitelist the step raises `AttributeError` (modelled `none`)
instead of removing the whitelisted domains and proceeding to consolidation. -/
theorem claim2_whitelist_crash :
    applyWhitelistStep {"a.com".toList, "good.example.com".toList}
        {"good.example.com".toList} = none ∧
      "apply_whitelist" ∉ domainProcessorMethods := by
  constructor
  · decide
  · decide

/-- Claim C3 (counterexample): the output lines are sorted by the raw domain,
not by the formatted pattern string; for the consolidated set
`{"a.com", "a.com.br"}` the emitted lines are not in ascending lexicographic
order of the formatted strings (`'.' < '/'` makes `*://*.a.com.br/*` compare
below `*://*.a.com/*`). -/
theorem claim3_counterexample :
    ublacklist_entries (optimise_domains {"a.com".toList, "a.com.br".toList}) =
        ["*://*.a.com/*".toList, "*://*.a.com.br/*".toList] ∧
      ¬List.Sorted strLeP
        (ublacklist_entries (optimise_domains {"a.com".toList, "a.com.br".toList})) := by
  constructor
  · decide
  · decide

/-- Claim C3 (amended): the pattern lines appear in ascending lexicographic
order of the raw domain each line wraps (strip the fixed `*://*.` and `/*`
wrapper and the sequence of domains is sorted). -/
theorem claim3_sorted_by_domain (S : Finset Str) :
    List.Sorted strLeP ((ublacklist_entries S).map stripPattern) := by
  unfold ublacklist_entries
  rw [List.map_map]
  have hid : (stripPattern ∘ format_for_ublacklist) = id := by
    funext d
    exact stripPattern_format d
  rw [hid, List.map_id]
  exact pySorted_sorted S

/-- Claim C4: consolidation is idempotent — re-running `optimise_domains` on
its own output changes nothing. -/
theorem claim4_idempotent (D : Finset Str) :
    optimise_domains (optimise_domains D) = optimise_domains D := by
  have helig : ∀ x ∈ pySorted (optimise_domains D), eligible x = true := fun x hx =>
    (optimise_elem_full (mem_pySorted.1 hx)).1
  have hinj : ∀ x ∈ pySorted (optimise_domains D), ∀ y ∈ pySorted (optimise_domains D),
      rootKey x = rootKey y → x = y := fun x hx y hy hxy =>
    optimise_rootKey_inj (mem_pySorted.1 hx) (mem_pySorted.1 hy) hxy
  have hfix : optimiseList (pySorted (optimise_domains D)) = pySorted (optimise_domains D) :=
    optimiseList_of_fixed (pySorted_nodup _) helig hinj
  show (optimiseList (pySorted (optimise_domains D))).toFinset = optimise_domains D
  rw [hfix, pySorted_toFinset]

/-- Claim C5: whenever `find_common_suffix` over a multi-member group returns
a suffix with at least 2 labels, the coverage check (`every member equals the
suffix or ends with "." + suffix`) succeeds, so the fallback branch that
emits the members individually after a passed length test is never taken. -/
theorem claim5_coverage_check_succeeds (g : List Str) (hlen : 2 ≤ g.length)
    (hcs2 : 2 ≤ (splitDot (find_common_suffix g)).length) :
    g.all (fun d => d == find_common_suffix g ||
      ('.' :: find_common_suffix g).isSuffixOf d) = true := by
  have hg : g ≠ [] := by
    intro h
    rw [h] at hlen
    simp at hlen
  have hslne : suffixLoop (g.map splitDot) (fcsMin g) 1 ≠ [] := by
    intro hsl
    have hempty : find_common_suffix g = [] := by
      rw [fcs_eq hg, hsl]
      rfl
    rw [hempty] at hcs2
    simp [splitDot] at hcs2
  refine List.all_eq_true.2 ?_
  intro d hd
  rcases covered_of_fcs hg hd hslne with h | h
  · simp [h]
  · simp [List.isSuffixOf_iff_suffix, h]

/-- Witness for claim C5 at a concrete group. -/
theorem claim5_witness :
    2 ≤ (["x.y.evil.net".toList, "z.evil.net".toList] : List Str).length ∧
      2 ≤ (splitDot (find_common_suffix ["x.y.evil.net".toList, "z.evil.net".toList])).length ∧
      (["x.y.evil.net".toList, "z.evil.net".toList].all (fun d =>
        d == find_common_suffix ["x.y.evil.net".toList, "z.evil.net".toList] ||
        ('.' :: find_common_suffix ["x.y.evil.net".toList, "z.evil.net".toList]).isSuffixOf d))
        = true :=
  ⟨by decide, by decide, claim5_coverage_check_succeeds _ (by decide) (by decide)⟩

/-- Claim C6: every element of `optimise_domains D` is a member of `D` or a
right-aligned dot-separated suffix, with at least 2 labels, of at least one
member of `D`. -/
theorem claim6_no_spurious (D : Finset Str) (c : Str) (hc : c ∈ optimise_domains D) :
    c ∈ D ∨ ∃ d ∈ D, 2 ≤ (splitDot c).length ∧ splitDot c <:+ splitDot d :=
  (optimise_elem_full hc).2.2.2

/-- Witness for claim C6 at a concrete input. -/
theorem claim6_witness :
    "evil.net".toList ∈
        optimise_domains ({"x.y.evil.net".toList, "z.evil.net".toList} : Finset Str) ∧
      ("evil.net".toList ∈ ({"x.y.evil.net".toList, "z.evil.net".toList} : Finset Str) ∨
        ∃ d ∈ ({"x.y.evil.net".toList, "z.evil.net".toList} : Finset Str),
          2 ≤ (splitDot "evil.net".toList).length ∧
          splitDot "evil.net".toList <:+ splitDot d) :=
  ⟨by decide, claim6_no_spurious _ _ (by decide)⟩

/-- Claim C7: the consolidator is total — the exception-aware embedding of
`optimise_domains` (in which Python `min` over an empty sequence and every
list indexing raise) returns `some` well-defined set on every finite set of
strings, and agrees with the pure embedding. -/
theorem claim7_total (D : Finset Str) : optimise_domainsO D = some (optimise_domains D) := by
  unfold optimise_domainsO
  rw [seqOption_eq_some (fun r _ => processGroupO_eq (group (pySorted D) r))]
  rfl

/-- Claim C8: consolidation never grows the set —
`card (optimise_domains D) ≤ card D`. -/
theorem claim8_shrink (D : Finset Str) : (optimise_domains D).card ≤ D.card := by
  have h1 : (optimise_domains D).card ≤ (optimiseList (pySorted D)).length :=
    List.toFinset_card_le _
  rw [optimiseList_length] at h1
  have h2 : (roots (pySorted D)).length ≤ (pySorted D).length := by
    unfold roots
    calc (((pySorted D).filter eligible).map rootKey).dedup.length
        ≤ (((pySorted D).filter eligible).map rootKey).length :=
          (List.dedup_sublist _).length_le
      _ = ((pySorted D).filter eligible).length := List.length_map _ _
      _ ≤ (pySorted D).length := List.length_filter_le _ _
  have h3 := le_trans h1 h2
  rwa [pySorted_length] at h3

/-- Claim C9 (counterexample): the line `0.0.0.0 #tracker` whitespace-splits
into the first token `0.0.0.0` with a second token present, so by the claim a
domain would be contributed; the code contributes nothing (the extracted
token `""` is falsy). -/
theorem claim9_counterexample :
    pySplitWs "0.0.0.0 #tracker".toList = ["0.0.0.0".toList, "#tracker".toList] ∧
      process_source "0.0.0.0 #tracker".toList "hosts" = ∅ := by
  constructor
  · decide
  · decide

/-- Witness for claim C9 (amended) on the spec's scenario line: the claimed
behaviour evaluates to extracting `ads.example.com`. -/
theorem claim9_witness :
    (('\n' : Char) ∉ "0.0.0.0 ads.example.com # tracker".toList) ∧
      (('\r' : Char) ∉ "0.0.0.0 ads.example.com # tracker".toList) ∧
      process_source "0.0.0.0 ads.example.com # tracker".toList "hosts" =
        hostsLinePredicted "0.0.0.0 ads.example.com # tracker".toList ∧
      hostsLinePredicted "0.0.0.0 ads.example.com # tracker".toList =
        {"ads.example.com".toList} :=
  ⟨by decide, by decide, claim9_hosts_extraction _ (by decide) (by decide), by decide⟩

/-- Claim C10: the hosts variant applies no non-empty or contains-dot check to
the normalised result, so it can return a dot-free string (`0.0.0.0
localhost` yields `localhost`) or the empty string (`0.0.0.0 https://` yields
`""`), unlike the domain variant, which rejects `localhost`. -/
theorem claim10_hosts_unchecked :
    process_source "0.0.0.0 localhost".toList "hosts" = {"localhost".toList} ∧
      ('.' : Char) ∉ "localhost".toList ∧
      process_source "localhost".toList "domain" = ∅ ∧
      process_source "0.0.0.0 https://".toList "hosts" = {([] : Str)} := by
  refine ⟨by decide, by decide, by decide, by decide⟩

end GB
